import Mathlib

/-!
Verification of the nondeterministic Turing machine simulator in
`src/program.py` and `src/TM_trace_nefario.py`.

Both files define a class `NondeterministicTuringMachine` whose method `run`
explores the configuration tree of a nondeterministic single-tape Turing
machine breadth first.  The shallow embedding below translates the data model
and the `run` loop of both files into executable Lean definitions:

* symbols are `Char` (the Python code manipulates one-character strings and
  the blank is the character `_`), states are `String`;
* a configuration is the Python triple `[left_tape, state, right_tape]`;
* the transition table is the association list built by `load_machine`
  (a `defaultdict(list)` keyed by `(state, symbol)`, queried with `.get`);
* the `while` loop of `run` is modelled by `loopFuel`, a structurally
  recursive function on an explicit fuel parameter.  `run` calls it with fuel
  `max_transitions + 1`; the theorem `loopFuel_stable` below proves that any
  fuel of at least `max_transitions + 1 - count` produces the same result, so
  the fuel is no truncation: it is exactly the bound within which the Python
  loop provably exits (each continuing iteration strictly increases the
  transition counter, and the loop guard requires the counter to stay below
  `max_transitions`).

The two files differ in exactly one place: when a configuration has no entry
in the transition table, `program.py` produces no successor (its `for` loop
over `self.transitions.get((state, head_symbol), [])` runs zero times) while
`TM_trace_nefario.py` appends one implicit successor with the same tapes and
the reject state.  The two successor functions `succsProgram` and
`succsNefario` capture this; everything else is shared.
-/

set_option linter.unusedVariables false

namespace NTM

/-- A transition-table entry `(new_state, write_symbol, direction)`, one
element of the list `self.transitions[(current_state, read_symbol)]`. -/
structure Rule where
  new_state : String
  write_symbol : Char
  direction : String
deriving DecidableEq, Repr

/-- A configuration `[left_tape, state, right_tape]`: the tape split at the
head, with the head reading the first symbol of `right_tape`. -/
structure Config where
  left_tape : List Char
  state : String
  right_tape : List Char
deriving DecidableEq, Repr

/-- The transition table: an insertion-ordered association list from
`(state, symbol)` keys to the ordered list of rules appended at load time,
mirroring the ordered `defaultdict(list)` of the source. -/
abbrev Table := List ((String × Char) × List Rule)

/-- Dictionary lookup with default: `self.transitions.get(key, [])` returns
the list stored at the key, or the empty list when the key is absent. -/
def Table.get : Table → String × Char → List Rule
  | [], _ => []
  | (k', rs) :: rest, k => if k' = k then rs else Table.get rest k

/-- The pair-returning model of Python's `dict.get(key, [])`: it yields the
looked-up value together with the dictionary, which it leaves unchanged
(`dict.get` never inserts, unlike `defaultdict.__getitem__`). -/
def dict_get (tbl : Table) (k : String × Char) : List Rule × Table :=
  match List.find? (fun p => decide (p.1 = k)) tbl with
  | some p => (p.2, tbl)
  | none => ([], tbl)

/-- One parsed transition row of the definition file:
`(current_state, read_symbol, new_state, write_symbol, direction)`. -/
structure Row where
  current_state : String
  read_symbol : Char
  new_state : String
  write_symbol : Char
  direction : String
deriving DecidableEq, Repr

/-- The effect of `self.transitions[(s, r)].append(rule)` on the table: a
`defaultdict(list)` inserts an empty list for an absent key, then the rule is
appended at the end of the list stored at the key. -/
def addRule : Table → String × Char → Rule → Table
  | [], k, r => [(k, [r])]
  | (k', rs) :: rest, k, r =>
    if k' = k then (k', rs ++ [r]) :: rest else (k', rs) :: addRule rest k r

/-- The table-building loop of `load_machine` over the transition rows
(`for transition in rows[7:]`). -/
def load_machine (rows : List Row) : Table :=
  rows.foldl
    (fun tbl row =>
      addRule tbl (row.current_state, row.read_symbol)
        ⟨row.new_state, row.write_symbol, row.direction⟩) []

/-- The parts of the machine definition that `run` consults. -/
structure Machine where
  transitions : Table
  start_state : String
  accept_state : String
  reject_state : String
deriving DecidableEq, Repr

/-- `head_symbol = right_tape[0] if right_tape else "_"`. -/
def headSymbol (c : Config) : Char :=
  match c.right_tape with
  | [] => '_'
  | x :: _ => x

/-- Writing a symbol at the head: replace the first cell of the right tape,
appending the symbol if the right tape is empty. -/
def writeSymbol (right : List Char) (w : Char) : List Char :=
  match right with
  | [] => [w]
  | _ :: rs => w :: rs

/-- Applying one transition rule to a configuration: write the symbol, then
move the head.  Moving `L` transfers the last cell of the left tape to the
front of the right tape (a blank if the left tape is empty); moving `R`
transfers the first cell of the right tape to the end of the left tape and
re-blanks the right tape if it becomes empty; any other direction string
falls through both `if` branches and leaves the head in place. -/
def applyRule (c : Config) (r : Rule) : Config :=
  let r1 := writeSymbol c.right_tape r.write_symbol
  if r.direction = "L" then
    match c.left_tape.reverse with
    | [] => ⟨[], r.new_state, '_' :: r1⟩
    | x :: rest => ⟨rest.reverse, r.new_state, x :: r1⟩
  else if r.direction = "R" then
    match r1 with
    | [] => ⟨c.left_tape, r.new_state, ['_']⟩
    | y :: rs => ⟨c.left_tape ++ [y], r.new_state, if rs = [] then ['_'] else rs⟩
  else
    ⟨c.left_tape, r.new_state, r1⟩

/-- Successors of one configuration in `src/program.py`: the `for` loop over
`self.transitions.get((state, head_symbol), [])` — zero successors when no
entry exists. -/
def succsProgram (M : Machine) (c : Config) : List Config :=
  (Table.get M.transitions (c.state, headSymbol c)).map (applyRule c)

/-- Successors of one configuration in `src/TM_trace_nefario.py`: when no
entry exists, one implicit successor with the same tapes and the reject
state; otherwise the same expansion as `src/program.py`. -/
def succsNefario (M : Machine) (c : Config) : List Config :=
  let poss := Table.get M.transitions (c.state, headSymbol c)
  if poss = [] then [⟨c.left_tape, M.reject_state, c.right_tape⟩]
  else poss.map (applyRule c)

/-- Result of scanning one level: an accepting configuration was found (the
counter at that moment), the transition counter passed the budget, or the
scan completed with the produced next level and the final counter. -/
inductive ScanOut where
  | accepted (count : Nat)
  | budget (count : Nat)
  | done (next : List Config) (count : Nat)
deriving DecidableEq, Repr

/-- The `for left_tape, state, right_tape in current_level` loop of `run`:
halt on an accept-state configuration, skip a reject-state configuration,
otherwise increment the transition counter, halt if it passed the budget,
and append the successors of the configuration to the next level. -/
def scanLevel (M : Machine) (succs : Machine → Config → List Config) (maxT : Nat) :
    List Config → Nat → List Config → ScanOut
  | [], count, acc => .done acc count
  | c :: rest, count, acc =>
    if c.state = M.accept_state then .accepted count
    else if c.state = M.reject_state then scanLevel M succs maxT rest count acc
    else if count + 1 > maxT then .budget (count + 1)
    else scanLevel M succs maxT rest (count + 1) (acc ++ succs M c)

/-- The five terminal reports of `run`: the accept trace, the two rejection
prints, the budget print, the max-depth print, and the fall-through
`"No valid paths found. Machine halted."` print when the loop guard fails. -/
inductive Outcome where
  | accepted (depth : Nat)
  | rejected (depth : Nat)
  | budgetExceeded
  | depthExceeded
  | noValidPaths
deriving DecidableEq, Repr

/-- The observable final state of a run: the reported outcome, the retained
configuration tree, and the final value of the transition counter. -/
structure RunResult where
  outcome : Outcome
  tree : List (List Config)
  count : Nat
deriving DecidableEq, Repr

/-- The `while tree and transitions < self.max_transitions` loop of `run`,
made structurally recursive on an explicit fuel parameter.  One unfolding is
one loop iteration: scan the last level; on completion append the next level
if non-empty, halt past `max_depth`, halt rejecting when every configuration
of the next level (vacuously, of an empty next level) is in the reject
state, otherwise iterate.  Fuel exhaustion returns the same value as a
failing loop guard; `loopFuel_stable` shows it is never the deciding case
for the fuel `run` supplies. -/
def loopFuel (M : Machine) (succs : Machine → Config → List Config)
    (maxDepth maxT : Nat) : Nat → List (List Config) → Nat → RunResult
  | 0, tree, count => ⟨.noValidPaths, tree, count⟩
  | fuel + 1, tree, count =>
    if tree ≠ [] ∧ count < maxT then
      match scanLevel M succs maxT (tree.getLastD []) count [] with
      | .accepted c => ⟨.accepted (tree.length - 1), tree, c⟩
      | .budget c => ⟨.budgetExceeded, tree, c⟩
      | .done next c =>
        let tree' := if next = [] then tree else tree ++ [next]
        if tree'.length > maxDepth then ⟨.depthExceeded, tree', c⟩
        else if next.all (fun cf => cf.state == M.reject_state) then
          ⟨.rejected (tree'.length - 1), tree', c⟩
        else loopFuel M succs maxDepth maxT fuel tree' c
    else ⟨.noValidPaths, tree, count⟩

/-- `run`: initialize the tree with the single initial configuration
`["", start_state, input_string]` and a zero counter, then run the loop. -/
def runWith (succs : Machine → Config → List Config) (M : Machine)
    (input : List Char) (maxDepth maxT : Nat) : RunResult :=
  loopFuel M succs maxDepth maxT (maxT + 1) [[⟨[], M.start_state, input⟩]] 0

/-- The `run` method of `src/program.py`. -/
def runProgram (M : Machine) (input : List Char) (maxDepth maxT : Nat) : RunResult :=
  runWith succsProgram M input maxDepth maxT

/-- The `run` method of `src/TM_trace_nefario.py`. -/
def runNefario (M : Machine) (input : List Char) (maxDepth maxT : Nat) : RunResult :=
  runWith succsNefario M input maxDepth maxT

/-- The full expansion of one level: the concatenation, in order, of the
successors of every configuration that is not in the reject state (a scan
that completes has found no accept-state configuration, so those need no
case here; lemmas carry that fact separately). -/
def levelExpand (M : Machine) (succs : Machine → Config → List Config) :
    List Config → List Config
  | [] => []
  | c :: rest =>
    (if c.state = M.reject_state then [] else succs M c) ++ levelExpand M succs rest

/-- Modelled from the spec: the configuration count the specification
predicts for the next level — every configuration that is in neither the
accept nor the reject state contributes the number of its transition-table
entries, or `1` when no entry exists. -/
def levelWidthSpec (M : Machine) : List Config → Nat
  | [] => 0
  | c :: rest =>
    (if c.state = M.accept_state ∨ c.state = M.reject_state then 0
     else if Table.get M.transitions (c.state, headSymbol c) = [] then 1
     else (Table.get M.transitions (c.state, headSymbol c)).length) +
      levelWidthSpec M rest

/-- The configuration count `src/program.py` actually produces for the next
level: a configuration with no transition-table entry contributes `0`. -/
def levelWidthProgram (M : Machine) : List Config → Nat
  | [] => 0
  | c :: rest =>
    (if c.state = M.accept_state ∨ c.state = M.reject_state then 0
     else (Table.get M.transitions (c.state, headSymbol c)).length) +
      levelWidthProgram M rest

/-- Every configuration of the level is terminal or has a transition-table
entry — on such levels the two files expand identically. -/
def levelOK (M : Machine) (l : List Config) : Prop :=
  ∀ cf ∈ l, cf.state = M.accept_state ∨ cf.state = M.reject_state ∨
    Table.get M.transitions (cf.state, headSymbol cf) ≠ []

instance (M : Machine) (l : List Config) : Decidable (levelOK M l) := by
  unfold levelOK; infer_instance

/-- The tree grows append-only: `t₂` extends `t₁` with further levels. -/
def TreeExtends (t₁ t₂ : List (List Config)) : Prop :=
  ∃ rest, t₂ = t₁ ++ rest

/-- The ordered rules a key collects from a list of rows: the rows whose
`(current_state, read_symbol)` equals the key, in row order. -/
def rowsFor (rows : List Row) (k : String × Char) : List Rule :=
  (rows.filter (fun row => (row.current_state, row.read_symbol) = k)).map
    (fun row => ⟨row.new_state, row.write_symbol, row.direction⟩)

/-- Every configuration of the level is in the reject state. -/
def allRejectLevel (M : Machine) (l : List Config) : Prop :=
  ∀ cf ∈ l, cf.state = M.reject_state

instance (M : Machine) (l : List Config) : Decidable (allRejectLevel M l) := by
  unfold allRejectLevel; infer_instance

/-- The structural invariant of the retained tree: every level is non-empty,
and every level after the first is the full expansion of its predecessor, a
predecessor that contains no accept-state configuration (otherwise the run
would have halted instead of appending). -/
def Inv (M : Machine) (succs : Machine → Config → List Config)
    (tree : List (List Config)) : Prop :=
  (∀ l ∈ tree, l ≠ []) ∧
  ∀ i (h : i + 1 < tree.length),
    tree.get ⟨i + 1, h⟩ = levelExpand M succs (tree.get ⟨i, by omega⟩) ∧
    ∀ cf ∈ tree.get ⟨i, by omega⟩, cf.state ≠ M.accept_state

/-- The level scan of `src/program.py` with the transition table threaded as
explicit dictionary state: every query goes through `dict_get`, the model of
`self.transitions.get((state, head_symbol), [])`. -/
def scanLevelT (M : Machine) (maxT : Nat) :
    List Config → Nat → List Config → Table → ScanOut × Table
  | [], count, acc, tbl => (.done acc count, tbl)
  | c :: rest, count, acc, tbl =>
    if c.state = M.accept_state then (.accepted count, tbl)
    else if c.state = M.reject_state then scanLevelT M maxT rest count acc tbl
    else if count + 1 > maxT then (.budget (count + 1), tbl)
    else
      match dict_get tbl (c.state, headSymbol c) with
      | (rules, tbl2) => scanLevelT M maxT rest (count + 1) (acc ++ rules.map (applyRule c)) tbl2

/-- The `while` loop of `src/program.py` with the transition table threaded
as explicit dictionary state. -/
def loopT (M : Machine) (maxDepth maxT : Nat) :
    Nat → List (List Config) → Nat → Table → RunResult × Table
  | 0, tree, count, tbl => (⟨.noValidPaths, tree, count⟩, tbl)
  | fuel + 1, tree, count, tbl =>
    if tree ≠ [] ∧ count < maxT then
      match scanLevelT M maxT (tree.getLastD []) count [] tbl with
      | (.accepted c, tbl2) => (⟨.accepted (tree.length - 1), tree, c⟩, tbl2)
      | (.budget c, tbl2) => (⟨.budgetExceeded, tree, c⟩, tbl2)
      | (.done next c, tbl2) =>
        let tree' := if next = [] then tree else tree ++ [next]
        if tree'.length > maxDepth then (⟨.depthExceeded, tree', c⟩, tbl2)
        else if next.all (fun cf => cf.state == M.reject_state) then
          (⟨.rejected (tree'.length - 1), tree', c⟩, tbl2)
        else loopT M maxDepth maxT fuel tree' c tbl2
    else (⟨.noValidPaths, tree, count⟩, tbl)

/-- `run` of `src/program.py` with the transition table threaded: it starts
from the table `load_machine` built and returns the table as left at the end
of the run. -/
def runT (M : Machine) (input : List Char) (maxDepth maxT : Nat) :
    RunResult × Table :=
  loopT M maxDepth maxT (maxT + 1) [[⟨[], M.start_state, input⟩]] 0 M.transitions

/-- Leading cells of the left tape that are materialized blanks: the tape is
conceptually infinite, so two left tapes that differ only in blanks at their
far (leftmost) end denote the same tape contents and the same head position
relative to it. -/
def stripLeadingBlanks (l : List Char) : List Char :=
  l.dropWhile (fun a => a == '_')

/-- Trailing cells of the right tape that are materialized blanks: two right
tapes that differ only in blanks at their far (rightmost) end denote the same
tape contents. -/
def stripTrailingBlanks (l : List Char) : List Char :=
  (l.reverse.dropWhile (fun a => a == '_')).reverse

/-- Machine with an empty transition table (start, accept and reject states
`q0`, `qa`, `qr`). -/
def Mnone : Machine := ⟨[], "q0", "qa", "qr"⟩

/-- Machine whose single rule moves the start state into the accept state on
reading `a`. -/
def MtoAccept : Machine :=
  ⟨load_machine [⟨"q0", 'a', "qa", 'a', "R"⟩], "q0", "qa", "qr"⟩

/-- Machine whose single rule moves the start state into the reject state on
reading `a`. -/
def MtoReject : Machine :=
  ⟨load_machine [⟨"q0", 'a', "qr", 'a', "R"⟩], "q0", "qa", "qr"⟩

/-- Machine that branches nondeterministically from `q0` into `q1` and `q2`;
`q1` has a further rule on blank, `q2` has none. -/
def Mbranch : Machine :=
  ⟨load_machine [⟨"q0", 'a', "q1", 'b', "R"⟩, ⟨"q0", 'a', "q2", 'b', "R"⟩,
    ⟨"q1", '_', "q3", '_', "R"⟩], "q0", "qa", "qr"⟩

/-- Machine whose start state is its accept state. -/
def MstartAccept : Machine := ⟨[], "qs", "qs", "qr"⟩

/-! ### List helpers -/

theorem getLastD_eq_getLast {α : Type} (l : List α) (d : α) (h : l ≠ []) :
    l.getLastD d = l.getLast h := by
  cases l with
  | nil => exact absurd rfl h
  | cons a l => simp [List.getLastD_eq_getLast?, List.getLast?_eq_getLast]

theorem getLastD_mem {α : Type} (l : List α) (d : α) (h : l ≠ []) :
    l.getLastD d ∈ l := by
  rw [getLastD_eq_getLast l d h]
  exact List.getLast_mem h

theorem getLastD_eq_get {α : Type} (l : List α) (d : α) (h : l ≠ []) :
    l.getLastD d = l.get ⟨l.length - 1, by simp [List.length_pos.mpr h]⟩ := by
  rw [getLastD_eq_getLast l d h]
  exact List.getLast_eq_get l h

/-! ### Tree extension lemmas -/

theorem treeExtends_refl (t : List (List Config)) : TreeExtends t t :=
  ⟨[], by simp⟩

theorem treeExtends_snoc (t : List (List Config)) (n : List Config) :
    TreeExtends t (t ++ [n]) :=
  ⟨[n], rfl⟩

theorem treeExtends_trans {t₁ t₂ t₃ : List (List Config)}
    (h₁ : TreeExtends t₁ t₂) (h₂ : TreeExtends t₂ t₃) : TreeExtends t₁ t₃ := by
  obtain ⟨r₁, rfl⟩ := h₁
  obtain ⟨r₂, rfl⟩ := h₂
  exact ⟨r₁ ++ r₂, by simp⟩

theorem treeExtends_mem {t₁ t₂ : List (List Config)} {l : List Config}
    (h : TreeExtends t₁ t₂) (hm : l ∈ t₁) : l ∈ t₂ := by
  obtain ⟨r, rfl⟩ := h
  exact List.mem_append_left r hm

theorem treeExtends_ne_nil {t₁ t₂ : List (List Config)}
    (h₁ : t₁ ≠ []) (h : TreeExtends t₁ t₂) : t₂ ≠ [] := by
  obtain ⟨r, rfl⟩ := h
  simp [h₁]

/-! ### Scan lemmas -/

theorem scanLevel_done_next (M : Machine) (succs : Machine → Config → List Config)
    (maxT : Nat) (l : List Config) :
    ∀ count acc next c, scanLevel M succs maxT l count acc = .done next c →
      next = acc ++ levelExpand M succs l := by
  induction l with
  | nil =>
    intro count acc next c h
    simp [scanLevel] at h
    simp [levelExpand, ← h.1]
  | cons cf rest ih =>
    intro count acc next c h
    by_cases h1 : cf.state = M.accept_state
    · simp [scanLevel, h1] at h
    · by_cases h2 : cf.state = M.reject_state
      · rw [scanLevel, if_neg h1, if_pos h2] at h
        simpa [levelExpand, h2] using ih count acc next c h
      · by_cases h3 : count + 1 > maxT
        · rw [scanLevel, if_neg h1, if_neg h2, if_pos h3] at h
          cases h
        · rw [scanLevel, if_neg h1, if_neg h2, if_neg h3] at h
          simpa [levelExpand, h2, List.append_assoc] using
            ih (count + 1) (acc ++ succs M cf) next c h

theorem scanLevel_done_noaccept (M : Machine) (succs : Machine → Config → List Config)
    (maxT : Nat) (l : List Config) :
    ∀ count acc next c, scanLevel M succs maxT l count acc = .done next c →
      ∀ cf ∈ l, cf.state ≠ M.accept_state := by
  induction l with
  | nil => intro _ _ _ _ _ cf hm; cases hm
  | cons cf rest ih =>
    intro count acc next c h cg hm
    by_cases h1 : cf.state = M.accept_state
    · simp [scanLevel, h1] at h
    · by_cases h2 : cf.state = M.reject_state
      · rw [scanLevel, if_neg h1, if_pos h2] at h
        rcases List.mem_cons.mp hm with hm | hm
        · rw [hm]; exact h1
        · exact ih count acc next c h cg hm
      · by_cases h3 : count + 1 > maxT
        · rw [scanLevel, if_neg h1, if_neg h2, if_pos h3] at h
          cases h
        · rw [scanLevel, if_neg h1, if_neg h2, if_neg h3] at h
          rcases List.mem_cons.mp hm with hm | hm
          · rw [hm]; exact h1
          · exact ih (count + 1) (acc ++ succs M cf) next c h cg hm

theorem scanLevel_done_count_le (M : Machine) (succs : Machine → Config → List Config)
    (maxT : Nat) (l : List Config) :
    ∀ count acc next c, scanLevel M succs maxT l count acc = .done next c →
      count ≤ c := by
  induction l with
  | nil =>
    intro count acc next c h
    simp [scanLevel] at h
    omega
  | cons cf rest ih =>
    intro count acc next c h
    by_cases h1 : cf.state = M.accept_state
    · simp [scanLevel, h1] at h
    · by_cases h2 : cf.state = M.reject_state
      · rw [scanLevel, if_neg h1, if_pos h2] at h
        exact ih count acc next c h
      · by_cases h3 : count + 1 > maxT
        · rw [scanLevel, if_neg h1, if_neg h2, if_pos h3] at h
          cases h
        · rw [scanLevel, if_neg h1, if_neg h2, if_neg h3] at h
          have := ih (count + 1) (acc ++ succs M cf) next c h
          omega

theorem scanLevel_done_le_maxT (M : Machine) (succs : Machine → Config → List Config)
    (maxT : Nat) (l : List Config) :
    ∀ count acc next c, count ≤ maxT →
      scanLevel M succs maxT l count acc = .done next c → c ≤ maxT := by
  induction l with
  | nil =>
    intro count acc next c hle h
    simp [scanLevel] at h
    omega
  | cons cf rest ih =>
    intro count acc next c hle h
    by_cases h1 : cf.state = M.accept_state
    · simp [scanLevel, h1] at h
    · by_cases h2 : cf.state = M.reject_state
      · rw [scanLevel, if_neg h1, if_pos h2] at h
        exact ih count acc next c hle h
      · by_cases h3 : count + 1 > maxT
        · rw [scanLevel, if_neg h1, if_neg h2, if_pos h3] at h
          cases h
        · rw [scanLevel, if_neg h1, if_neg h2, if_neg h3] at h
          exact ih (count + 1) (acc ++ succs M cf) next c (by omega) h

theorem scanLevel_done_lt (M : Machine) (succs : Machine → Config → List Config)
    (maxT : Nat) (l : List Config) :
    ∀ count acc next c, scanLevel M succs maxT l count acc = .done next c →
      levelExpand M succs l ≠ [] → count < c := by
  induction l with
  | nil =>
    intro count acc next c h hne
    simp [levelExpand] at hne
  | cons cf rest ih =>
    intro count acc next c h hne
    by_cases h1 : cf.state = M.accept_state
    · simp [scanLevel, h1] at h
    · by_cases h2 : cf.state = M.reject_state
      · rw [scanLevel, if_neg h1, if_pos h2] at h
        rw [levelExpand, if_pos h2, List.nil_append] at hne
        exact ih count acc next c h hne
      · by_cases h3 : count + 1 > maxT
        · rw [scanLevel, if_neg h1, if_neg h2, if_pos h3] at h
          cases h
        · rw [scanLevel, if_neg h1, if_neg h2, if_neg h3] at h
          have := scanLevel_done_count_le M succs maxT rest (count + 1)
            (acc ++ succs M cf) next c h
          omega

theorem scanLevel_budget_eq (M : Machine) (succs : Machine → Config → List Config)
    (maxT : Nat) (l : List Config) :
    ∀ count acc c, count ≤ maxT →
      scanLevel M succs maxT l count acc = .budget c → c = maxT + 1 := by
  induction l with
  | nil =>
    intro count acc c hle h
    simp [scanLevel] at h
  | cons cf rest ih =>
    intro count acc c hle h
    by_cases h1 : cf.state = M.accept_state
    · simp [scanLevel, h1] at h
    · by_cases h2 : cf.state = M.reject_state
      · rw [scanLevel, if_neg h1, if_pos h2] at h
        exact ih count acc c hle h
      · by_cases h3 : count + 1 > maxT
        · rw [scanLevel, if_neg h1, if_neg h2, if_pos h3] at h
          cases h
          omega
        · rw [scanLevel, if_neg h1, if_neg h2, if_neg h3] at h
          exact ih (count + 1) (acc ++ succs M cf) c (by omega) h

theorem scanLevel_budget_mem (M : Machine) (succs : Machine → Config → List Config)
    (maxT : Nat) (l : List Config) :
    ∀ count acc c, scanLevel M succs maxT l count acc = .budget c →
      ∃ cf ∈ l, cf.state ≠ M.accept_state ∧ cf.state ≠ M.reject_state := by
  induction l with
  | nil =>
    intro count acc c h
    simp [scanLevel] at h
  | cons cf rest ih =>
    intro count acc c h
    by_cases h1 : cf.state = M.accept_state
    · simp [scanLevel, h1] at h
    · by_cases h2 : cf.state = M.reject_state
      · rw [scanLevel, if_neg h1, if_pos h2] at h
        obtain ⟨cg, hm, hg⟩ := ih count acc c h
        exact ⟨cg, List.mem_cons_of_mem cf hm, hg⟩
      · exact ⟨cf, List.mem_cons_self cf rest, h1, h2⟩

theorem scanLevel_accepted_mem (M : Machine) (succs : Machine → Config → List Config)
    (maxT : Nat) (l : List Config) :
    ∀ count acc c, scanLevel M succs maxT l count acc = .accepted c →
      ∃ cf ∈ l, cf.state = M.accept_state := by
  induction l with
  | nil =>
    intro count acc c h
    simp [scanLevel] at h
  | cons cf rest ih =>
    intro count acc c h
    by_cases h1 : cf.state = M.accept_state
    · exact ⟨cf, List.mem_cons_self cf rest, h1⟩
    · by_cases h2 : cf.state = M.reject_state
      · rw [scanLevel, if_neg h1, if_pos h2] at h
        obtain ⟨cg, hm, hg⟩ := ih count acc c h
        exact ⟨cg, List.mem_cons_of_mem cf hm, hg⟩
      · by_cases h3 : count + 1 > maxT
        · rw [scanLevel, if_neg h1, if_neg h2, if_pos h3] at h
          cases h
        · rw [scanLevel, if_neg h1, if_neg h2, if_neg h3] at h
          obtain ⟨cg, hm, hg⟩ := ih (count + 1) (acc ++ succs M cf) c h
          exact ⟨cg, List.mem_cons_of_mem cf hm, hg⟩

theorem scanLevel_accepted_le (M : Machine) (succs : Machine → Config → List Config)
    (maxT : Nat) (l : List Config) :
    ∀ count acc c, count ≤ maxT →
      scanLevel M succs maxT l count acc = .accepted c → c ≤ maxT := by
  induction l with
  | nil =>
    intro count acc c hle h
    simp [scanLevel] at h
  | cons cf rest ih =>
    intro count acc c hle h
    by_cases h1 : cf.state = M.accept_state
    · rw [scanLevel, if_pos h1] at h
      cases h
      omega
    · by_cases h2 : cf.state = M.reject_state
      · rw [scanLevel, if_neg h1, if_pos h2] at h
        exact ih count acc c hle h
      · by_cases h3 : count + 1 > maxT
        · rw [scanLevel, if_neg h1, if_neg h2, if_pos h3] at h
          cases h
        · rw [scanLevel, if_neg h1, if_neg h2, if_neg h3] at h
          exact ih (count + 1) (acc ++ succs M cf) c (by omega) h

/-! ### Level expansion lemmas -/

theorem levelExpand_allReject (M : Machine) (succs : Machine → Config → List Config)
    (l : List Config) (h : allRejectLevel M l) : levelExpand M succs l = [] := by
  induction l with
  | nil => rfl
  | cons cf rest ih =>
    rw [levelExpand, if_pos (h cf (List.mem_cons_self cf rest)), List.nil_append]
    exact ih (fun cg hm => h cg (List.mem_cons_of_mem cf hm))

theorem levelExpand_ne_exists (M : Machine) (succs : Machine → Config → List Config)
    (l : List Config) (h : levelExpand M succs l ≠ []) :
    ∃ cf ∈ l, cf.state ≠ M.reject_state := by
  induction l with
  | nil => exact absurd rfl h
  | cons cf rest ih =>
    by_cases h2 : cf.state = M.reject_state
    · rw [levelExpand, if_pos h2, List.nil_append] at h
      obtain ⟨cg, hm, hg⟩ := ih h
      exact ⟨cg, List.mem_cons_of_mem cf hm, hg⟩
    · exact ⟨cf, List.mem_cons_self cf rest, h2⟩

theorem levelExpand_length_nefario (M : Machine) (l : List Config)
    (h : ∀ cf ∈ l, cf.state ≠ M.accept_state) :
    (levelExpand M succsNefario l).length = levelWidthSpec M l := by
  induction l with
  | nil => rfl
  | cons cf rest ih =>
    have hrest := ih (fun cg hm => h cg (List.mem_cons_of_mem cf hm))
    have hacc := h cf (List.mem_cons_self cf rest)
    by_cases h2 : cf.state = M.reject_state
    · rw [levelExpand, if_pos h2, List.nil_append, hrest, levelWidthSpec,
        if_pos (Or.inr h2)]
      omega
    · rw [levelExpand, if_neg h2, levelWidthSpec, if_neg (by tauto),
        List.length_append, hrest, succsNefario]
      by_cases h3 : Table.get M.transitions (cf.state, headSymbol cf) = []
      · simp [h3]
      · simp [h3]

theorem levelExpand_length_program (M : Machine) (l : List Config)
    (h : ∀ cf ∈ l, cf.state ≠ M.accept_state) :
    (levelExpand M succsProgram l).length = levelWidthProgram M l := by
  induction l with
  | nil => rfl
  | cons cf rest ih =>
    have hrest := ih (fun cg hm => h cg (List.mem_cons_of_mem cf hm))
    have hacc := h cf (List.mem_cons_self cf rest)
    by_cases h2 : cf.state = M.reject_state
    · rw [levelExpand, if_pos h2, List.nil_append, hrest, levelWidthProgram,
        if_pos (Or.inr h2)]
      omega
    · rw [levelExpand, if_neg h2, levelWidthProgram, if_neg (by tauto),
        List.length_append, hrest, succsProgram, List.length_map]

/-! ### One-iteration step lemmas for the loop -/

theorem loopFuel_zero (M : Machine) (succs : Machine → Config → List Config)
    (maxDepth maxT : Nat) (tree : List (List Config)) (count : Nat) :
    loopFuel M succs maxDepth maxT 0 tree count = ⟨.noValidPaths, tree, count⟩ := rfl

theorem loopFuel_guard_false (M : Machine) (succs : Machine → Config → List Config)
    (maxDepth maxT fuel : Nat) (tree : List (List Config)) (count : Nat)
    (hg : ¬(tree ≠ [] ∧ count < maxT)) :
    loopFuel M succs maxDepth maxT (fuel + 1) tree count = ⟨.noValidPaths, tree, count⟩ := by
  rw [loopFuel, if_neg hg]

theorem loopFuel_accepted (M : Machine) (succs : Machine → Config → List Config)
    (maxDepth maxT fuel : Nat) (tree : List (List Config)) (count c : Nat)
    (hg : tree ≠ [] ∧ count < maxT)
    (hs : scanLevel M succs maxT (tree.getLastD []) count [] = .accepted c) :
    loopFuel M succs maxDepth maxT (fuel + 1) tree count =
      ⟨.accepted (tree.length - 1), tree, c⟩ := by
  rw [loopFuel, if_pos hg, hs]

theorem loopFuel_budget (M : Machine) (succs : Machine → Config → List Config)
    (maxDepth maxT fuel : Nat) (tree : List (List Config)) (count c : Nat)
    (hg : tree ≠ [] ∧ count < maxT)
    (hs : scanLevel M succs maxT (tree.getLastD []) count [] = .budget c) :
    loopFuel M succs maxDepth maxT (fuel + 1) tree count =
      ⟨.budgetExceeded, tree, c⟩ := by
  rw [loopFuel, if_pos hg, hs]

theorem loopFuel_done (M : Machine) (succs : Machine → Config → List Config)
    (maxDepth maxT fuel : Nat) (tree : List (List Config)) (count c : Nat)
    (next : List Config) (hg : tree ≠ [] ∧ count < maxT)
    (hs : scanLevel M succs maxT (tree.getLastD []) count [] = .done next c) :
    loopFuel M succs maxDepth maxT (fuel + 1) tree count =
      (if (if next = [] then tree else tree ++ [next]).length > maxDepth then
        ⟨.depthExceeded, if next = [] then tree else tree ++ [next], c⟩
      else if next.all (fun cf => cf.state == M.reject_state) then
        ⟨.rejected ((if next = [] then tree else tree ++ [next]).length - 1),
          if next = [] then tree else tree ++ [next], c⟩
      else loopFuel M succs maxDepth maxT fuel (if next = [] then tree else tree ++ [next]) c) := by
  rw [loopFuel, if_pos hg, hs]

/-! ### Loop lemmas -/

theorem loopFuel_stable (M : Machine) (succs : Machine → Config → List Config)
    (maxDepth maxT : Nat) :
    ∀ fuel₁ fuel₂ tree count, maxT ≤ count + fuel₁ → maxT ≤ count + fuel₂ →
      loopFuel M succs maxDepth maxT fuel₁ tree count =
        loopFuel M succs maxDepth maxT fuel₂ tree count := by
  intro fuel₁
  induction fuel₁ with
  | zero =>
    intro fuel₂ tree count h₁ h₂
    cases fuel₂ with
    | zero => rfl
    | succ g =>
      rw [loopFuel_zero, loopFuel_guard_false]
      intro hg
      omega
  | succ f ih =>
    intro fuel₂ tree count h₁ h₂
    cases fuel₂ with
    | zero =>
      rw [loopFuel_zero, loopFuel_guard_false]
      intro hg
      omega
    | succ g =>
      by_cases hg : tree ≠ [] ∧ count < maxT
      · cases hscan : scanLevel M succs maxT (tree.getLastD []) count [] with
        | accepted c =>
          rw [loopFuel_accepted M succs maxDepth maxT f tree count c hg hscan,
            loopFuel_accepted M succs maxDepth maxT g tree count c hg hscan]
        | budget c =>
          rw [loopFuel_budget M succs maxDepth maxT f tree count c hg hscan,
            loopFuel_budget M succs maxDepth maxT g tree count c hg hscan]
        | done next c =>
          rw [loopFuel_done M succs maxDepth maxT f tree count c next hg hscan,
            loopFuel_done M succs maxDepth maxT g tree count c next hg hscan]
          by_cases hd : (if next = [] then tree else tree ++ [next]).length > maxDepth
          · rw [if_pos hd, if_pos hd]
          · rw [if_neg hd, if_neg hd]
            by_cases hr : next.all (fun cf => cf.state == M.reject_state) = true
            · rw [if_pos hr, if_pos hr]
            · rw [if_neg hr, if_neg hr]
              have hne : next ≠ [] := by
                intro hnil
                rw [hnil] at hr
                simp at hr
              have hexp := scanLevel_done_next M succs maxT (tree.getLastD []) count [] next c hscan
              have hlt : count < c := by
                apply scanLevel_done_lt M succs maxT (tree.getLastD []) count [] next c hscan
                intro hnil
                rw [hexp, hnil] at hne
                simp at hne
              exact ih g (if next = [] then tree else tree ++ [next]) c (by omega) (by omega)
      · rw [loopFuel_guard_false M succs maxDepth maxT f tree count hg,
          loopFuel_guard_false M succs maxDepth maxT g tree count hg]

theorem loop_treeExtends (M : Machine) (succs : Machine → Config → List Config)
    (maxDepth maxT : Nat) :
    ∀ fuel tree count,
      TreeExtends tree (loopFuel M succs maxDepth maxT fuel tree count).tree := by
  intro fuel
  induction fuel with
  | zero => intro tree count; exact treeExtends_refl tree
  | succ f ih =>
    intro tree count
    by_cases hg : tree ≠ [] ∧ count < maxT
    · cases hscan : scanLevel M succs maxT (tree.getLastD []) count [] with
      | accepted c =>
        rw [loopFuel_accepted M succs maxDepth maxT f tree count c hg hscan]
        exact treeExtends_refl tree
      | budget c =>
        rw [loopFuel_budget M succs maxDepth maxT f tree count c hg hscan]
        exact treeExtends_refl tree
      | done next c =>
        rw [loopFuel_done M succs maxDepth maxT f tree count c next hg hscan]
        have hext : TreeExtends tree (if next = [] then tree else tree ++ [next]) := by
          by_cases hne : next = []
          · rw [if_pos hne]; exact treeExtends_refl tree
          · rw [if_neg hne]; exact treeExtends_snoc tree next
        by_cases hd : (if next = [] then tree else tree ++ [next]).length > maxDepth
        · rw [if_pos hd]; exact hext
        · rw [if_neg hd]
          by_cases hr : next.all (fun cf => cf.state == M.reject_state) = true
          · rw [if_pos hr]; exact hext
          · rw [if_neg hr]
            exact treeExtends_trans hext (ih (if next = [] then tree else tree ++ [next]) c)
    · rw [loopFuel_guard_false M succs maxDepth maxT f tree count hg]
      exact treeExtends_refl tree

theorem inv_snoc (M : Machine) (succs : Machine → Config → List Config)
    (tree : List (List Config)) (next : List Config)
    (hinv : Inv M succs tree) (htne : tree ≠ [])
    (hnext : next = levelExpand M succs (tree.getLastD []))
    (hnoacc : ∀ cf ∈ tree.getLastD [], cf.state ≠ M.accept_state)
    (hne : next ≠ []) : Inv M succs (tree ++ [next]) := by
  obtain ⟨hnil, hchain⟩ := hinv
  constructor
  · intro l hl
    rcases List.mem_append.mp hl with hl | hl
    · exact hnil l hl
    · rw [List.mem_singleton.mp hl]; exact hne
  · intro i h
    rw [List.length_append, List.length_singleton] at h
    by_cases hi : i + 1 < tree.length
    · have hg1 : (tree ++ [next]).get ⟨i + 1, by rw [List.length_append, List.length_singleton]; omega⟩ =
          tree.get ⟨i + 1, hi⟩ := List.get_append (i + 1) hi
      have hg2 : (tree ++ [next]).get ⟨i, by rw [List.length_append, List.length_singleton]; omega⟩ =
          tree.get ⟨i, by omega⟩ := List.get_append i (by omega)
      rw [hg1, hg2]
      exact hchain i hi
    · have hlen : tree.length = i + 1 := by omega
      have hg1 : (tree ++ [next]).get ⟨i + 1, by rw [List.length_append, List.length_singleton]; omega⟩ = next :=
        List.get_of_append rfl hlen
      have hg2 : (tree ++ [next]).get ⟨i, by rw [List.length_append, List.length_singleton]; omega⟩ =
          tree.get ⟨i, by omega⟩ := List.get_append i (by omega)
      have hlast : tree.getLastD [] = tree.get ⟨i, by omega⟩ := by
        rw [getLastD_eq_get tree [] htne]
        congr 1
        simp [hlen]
      rw [hg1, hg2, ← hlast, hnext]
      exact ⟨rfl, hnoacc⟩

theorem loop_inv (M : Machine) (succs : Machine → Config → List Config)
    (maxDepth maxT : Nat) :
    ∀ fuel tree count, Inv M succs tree →
      Inv M succs (loopFuel M succs maxDepth maxT fuel tree count).tree := by
  intro fuel
  induction fuel with
  | zero => intro tree count hinv; exact hinv
  | succ f ih =>
    intro tree count hinv
    by_cases hg : tree ≠ [] ∧ count < maxT
    · cases hscan : scanLevel M succs maxT (tree.getLastD []) count [] with
      | accepted c =>
        rw [loopFuel_accepted M succs maxDepth maxT f tree count c hg hscan]
        exact hinv
      | budget c =>
        rw [loopFuel_budget M succs maxDepth maxT f tree count c hg hscan]
        exact hinv
      | done next c =>
        rw [loopFuel_done M succs maxDepth maxT f tree count c next hg hscan]
        have hexp : next = levelExpand M succs (tree.getLastD []) := by
          simpa using scanLevel_done_next M succs maxT (tree.getLastD []) count [] next c hscan
        have hnoacc : ∀ cf ∈ tree.getLastD [], cf.state ≠ M.accept_state :=
          scanLevel_done_noaccept M succs maxT (tree.getLastD []) count [] next c hscan
        have hinv2 : Inv M succs (if next = [] then tree else tree ++ [next]) := by
          by_cases hne : next = []
          · rw [if_pos hne]; exact hinv
          · rw [if_neg hne]
            exact inv_snoc M succs tree next hinv hg.1 hexp hnoacc hne
        by_cases hd : (if next = [] then tree else tree ++ [next]).length > maxDepth
        · rw [if_pos hd]; exact hinv2
        · rw [if_neg hd]
          by_cases hr : next.all (fun cf => cf.state == M.reject_state) = true
          · rw [if_pos hr]; exact hinv2
          · rw [if_neg hr]
            exact ih (if next = [] then tree else tree ++ [next]) c hinv2
    · rw [loopFuel_guard_false M succs maxDepth maxT f tree count hg]
      exact hinv

theorem loop_depth (M : Machine) (succs : Machine → Config → List Config)
    (maxDepth maxT : Nat) :
    ∀ fuel tree count, tree.length ≤ max maxDepth 1 →
      (loopFuel M succs maxDepth maxT fuel tree count).tree.length ≤ max maxDepth 1 + 1 := by
  intro fuel
  induction fuel with
  | zero => intro tree count h; rw [loopFuel_zero]; dsimp only; omega
  | succ f ih =>
    intro tree count h
    by_cases hg : tree ≠ [] ∧ count < maxT
    · cases hscan : scanLevel M succs maxT (tree.getLastD []) count [] with
      | accepted c =>
        rw [loopFuel_accepted M succs maxDepth maxT f tree count c hg hscan]
        dsimp only
        omega
      | budget c =>
        rw [loopFuel_budget M succs maxDepth maxT f tree count c hg hscan]
        dsimp only
        omega
      | done next c =>
        rw [loopFuel_done M succs maxDepth maxT f tree count c next hg hscan]
        have hlen : (if next = [] then tree else tree ++ [next]).length ≤ tree.length + 1 := by
          by_cases hne : next = []
          · rw [if_pos hne]; omega
          · rw [if_neg hne, List.length_append, List.length_singleton]
        by_cases hd : (if next = [] then tree else tree ++ [next]).length > maxDepth
        · rw [if_pos hd]
          dsimp only
          omega
        · rw [if_neg hd]
          by_cases hr : next.all (fun cf => cf.state == M.reject_state) = true
          · rw [if_pos hr]
            dsimp only
            omega
          · rw [if_neg hr]
            exact ih (if next = [] then tree else tree ++ [next]) c (by omega)
    · rw [loopFuel_guard_false M succs maxDepth maxT f tree count hg]
      dsimp only
      omega

theorem loop_count (M : Machine) (succs : Machine → Config → List Config)
    (maxDepth maxT : Nat) :
    ∀ fuel tree count, count ≤ maxT →
      ((loopFuel M succs maxDepth maxT fuel tree count).outcome = .budgetExceeded →
        (loopFuel M succs maxDepth maxT fuel tree count).count = maxT + 1) ∧
      ((loopFuel M succs maxDepth maxT fuel tree count).outcome ≠ .budgetExceeded →
        (loopFuel M succs maxDepth maxT fuel tree count).count ≤ maxT) := by
  intro fuel
  induction fuel with
  | zero =>
    intro tree count h
    rw [loopFuel_zero]
    exact ⟨(fun hh => nomatch hh), fun _ => h⟩
  | succ f ih =>
    intro tree count h
    by_cases hg : tree ≠ [] ∧ count < maxT
    · cases hscan : scanLevel M succs maxT (tree.getLastD []) count [] with
      | accepted c =>
        rw [loopFuel_accepted M succs maxDepth maxT f tree count c hg hscan]
        refine ⟨(fun hh => nomatch hh), fun _ => ?_⟩
        exact scanLevel_accepted_le M succs maxT (tree.getLastD []) count [] c h hscan
      | budget c =>
        rw [loopFuel_budget M succs maxDepth maxT f tree count c hg hscan]
        refine ⟨fun _ => ?_, fun hh => absurd rfl hh⟩
        exact scanLevel_budget_eq M succs maxT (tree.getLastD []) count [] c h hscan
      | done next c =>
        rw [loopFuel_done M succs maxDepth maxT f tree count c next hg hscan]
        have hle : c ≤ maxT :=
          scanLevel_done_le_maxT M succs maxT (tree.getLastD []) count [] next c h hscan
        by_cases hd : (if next = [] then tree else tree ++ [next]).length > maxDepth
        · rw [if_pos hd]
          exact ⟨(fun hh => nomatch hh), fun _ => hle⟩
        · rw [if_neg hd]
          by_cases hr : next.all (fun cf => cf.state == M.reject_state) = true
          · rw [if_pos hr]
            exact ⟨(fun hh => nomatch hh), fun _ => hle⟩
          · rw [if_neg hr]
            exact ih (if next = [] then tree else tree ++ [next]) c hle
    · rw [loopFuel_guard_false M succs maxDepth maxT f tree count hg]
      exact ⟨(fun hh => nomatch hh), fun _ => h⟩

theorem allRejectLevel_iff (M : Machine) (l : List Config) :
    allRejectLevel M l ↔ l.all (fun cf => cf.state == M.reject_state) = true := by
  simp [allRejectLevel, List.all_eq_true]

theorem loop_lastRej (M : Machine) (succs : Machine → Config → List Config)
    (maxDepth maxT : Nat) (hA : M.accept_state ≠ M.reject_state) :
    ∀ fuel tree count, tree ≠ [] → maxT ≤ count + fuel →
      (allRejectLevel M (tree.getLastD []) → count < maxT) →
      allRejectLevel M ((loopFuel M succs maxDepth maxT fuel tree count).tree.getLastD []) →
      (loopFuel M succs maxDepth maxT fuel tree count).outcome =
        (if (loopFuel M succs maxDepth maxT fuel tree count).tree.length ≤ maxDepth then
          Outcome.rejected ((loopFuel M succs maxDepth maxT fuel tree count).tree.length - 1)
        else Outcome.depthExceeded) := by
  intro fuel
  induction fuel with
  | zero =>
    intro tree count htne hfuel himp har
    rw [loopFuel_zero] at har
    exact absurd (himp har) (by omega)
  | succ f ih =>
    intro tree count htne hfuel himp har
    by_cases hg : tree ≠ [] ∧ count < maxT
    · cases hscan : scanLevel M succs maxT (tree.getLastD []) count [] with
      | accepted c =>
        rw [loopFuel_accepted M succs maxDepth maxT f tree count c hg hscan] at har
        obtain ⟨cf, hm, hcf⟩ :=
          scanLevel_accepted_mem M succs maxT (tree.getLastD []) count [] c hscan
        exact absurd (hcf ▸ har cf hm) hA
      | budget c =>
        rw [loopFuel_budget M succs maxDepth maxT f tree count c hg hscan] at har
        obtain ⟨cf, hm, hcf1, hcf2⟩ :=
          scanLevel_budget_mem M succs maxT (tree.getLastD []) count [] c hscan
        exact absurd (har cf hm) hcf2
      | done next c =>
        rw [loopFuel_done M succs maxDepth maxT f tree count c next hg hscan] at har ⊢
        by_cases hne : next = []
        · rw [if_pos hne] at har ⊢
          by_cases hd : tree.length > maxDepth
          · rw [if_pos hd] at har ⊢
            dsimp only
            rw [if_neg (by omega)]
          · rw [if_neg hd] at har ⊢
            rw [if_pos (by rw [hne]; rfl)] at har ⊢
            dsimp only
            rw [if_pos (by omega)]
        · rw [if_neg hne] at har ⊢
          by_cases hd : (tree ++ [next]).length > maxDepth
          · rw [if_pos hd] at har ⊢
            dsimp only
            rw [if_neg (by omega)]
          · rw [if_neg hd] at har ⊢
            by_cases hr : next.all (fun cf => cf.state == M.reject_state) = true
            · rw [if_pos hr] at har ⊢
              dsimp only
              rw [if_pos (by omega)]
            · rw [if_neg hr] at har ⊢
              have hexp : next = levelExpand M succs (tree.getLastD []) := by
                simpa using
                  scanLevel_done_next M succs maxT (tree.getLastD []) count [] next c hscan
              have hlt : count < c := by
                apply scanLevel_done_lt M succs maxT (tree.getLastD []) count [] next c hscan
                intro hnil
                rw [hexp, hnil] at hne
                exact hne rfl
              refine ih (tree ++ [next]) c (by simp) (by omega) ?_ har
              intro har2
              rw [List.getLastD_concat] at har2
              exact absurd ((allRejectLevel_iff M next).mp har2) hr
    · rw [loopFuel_guard_false M succs maxDepth maxT f tree count hg] at har
      have hcount : ¬ count < maxT := fun hc => hg ⟨htne, hc⟩
      exact absurd (himp har) hcount

/-! ### Agreement of the two files when no undefined move is met -/

theorem scanLevel_PN_eq (M : Machine) (maxT : Nat) (l : List Config)
    (hok : levelOK M l) :
    ∀ count acc, scanLevel M succsProgram maxT l count acc =
      scanLevel M succsNefario maxT l count acc := by
  induction l with
  | nil => intro count acc; rfl
  | cons cf rest ih =>
    intro count acc
    have hok2 : levelOK M rest := fun cg hm => hok cg (List.mem_cons_of_mem cf hm)
    by_cases h1 : cf.state = M.accept_state
    · rw [scanLevel, scanLevel, if_pos h1, if_pos h1]
    · by_cases h2 : cf.state = M.reject_state
      · rw [scanLevel, scanLevel, if_neg h1, if_neg h1, if_pos h2, if_pos h2]
        exact ih hok2 count acc
      · by_cases h3 : count + 1 > maxT
        · rw [scanLevel, scanLevel, if_neg h1, if_neg h1, if_neg h2, if_neg h2,
            if_pos h3, if_pos h3]
        · rw [scanLevel, scanLevel, if_neg h1, if_neg h1, if_neg h2, if_neg h2,
            if_neg h3, if_neg h3]
          have hent : Table.get M.transitions (cf.state, headSymbol cf) ≠ [] := by
            rcases hok cf (List.mem_cons_self cf rest) with h | h | h
            · exact absurd h h1
            · exact absurd h h2
            · exact h
          have hsame : succsProgram M cf = succsNefario M cf := by
            rw [succsProgram, succsNefario]
            simp [hent]
          rw [hsame]
          exact ih hok2 (count + 1) (acc ++ succsNefario M cf)

theorem loop_agree (M : Machine) (maxDepth maxT : Nat) :
    ∀ fuel tree count, tree ≠ [] →
      (∀ l ∈ (loopFuel M succsNefario maxDepth maxT fuel tree count).tree, levelOK M l) →
      loopFuel M succsProgram maxDepth maxT fuel tree count =
        loopFuel M succsNefario maxDepth maxT fuel tree count := by
  intro fuel
  induction fuel with
  | zero => intro tree count htne hok; rfl
  | succ f ih =>
    intro tree count htne hok
    by_cases hg : tree ≠ [] ∧ count < maxT
    · have hmem : tree.getLastD [] ∈ (loopFuel M succsNefario maxDepth maxT (f + 1) tree count).tree :=
        treeExtends_mem (loop_treeExtends M succsNefario maxDepth maxT (f + 1) tree count)
          (getLastD_mem tree [] htne)
      have hoklast : levelOK M (tree.getLastD []) := hok (tree.getLastD []) hmem
      have hscan_eq := scanLevel_PN_eq M maxT (tree.getLastD []) hoklast count []
      cases hscan : scanLevel M succsNefario maxT (tree.getLastD []) count [] with
      | accepted c =>
        rw [loopFuel_accepted M succsProgram maxDepth maxT f tree count c hg (hscan_eq.trans hscan),
          loopFuel_accepted M succsNefario maxDepth maxT f tree count c hg hscan]
      | budget c =>
        rw [loopFuel_budget M succsProgram maxDepth maxT f tree count c hg (hscan_eq.trans hscan),
          loopFuel_budget M succsNefario maxDepth maxT f tree count c hg hscan]
      | done next c =>
        rw [loopFuel_done M succsProgram maxDepth maxT f tree count c next hg (hscan_eq.trans hscan),
          loopFuel_done M succsNefario maxDepth maxT f tree count c next hg hscan]
        rw [loopFuel_done M succsNefario maxDepth maxT f tree count c next hg hscan] at hok
        by_cases hd : (if next = [] then tree else tree ++ [next]).length > maxDepth
        · rw [if_pos hd, if_pos hd]
        · rw [if_neg hd] at hok
          rw [if_neg hd, if_neg hd]
          by_cases hr : next.all (fun cf => cf.state == M.reject_state) = true
          · rw [if_pos hr, if_pos hr]
          · rw [if_neg hr] at hok
            rw [if_neg hr, if_neg hr]
            have htne2 : (if next = [] then tree else tree ++ [next]) ≠ [] := by
              by_cases hne : next = []
              · rw [if_pos hne]; exact htne
              · rw [if_neg hne]; simp
            exact ih (if next = [] then tree else tree ++ [next]) c htne2 hok
    · rw [loopFuel_guard_false M succsProgram maxDepth maxT f tree count hg,
        loopFuel_guard_false M succsNefario maxDepth maxT f tree count hg]

/-! ### Transition-table lemmas -/

theorem dict_get_snd (tbl : Table) (k : String × Char) : (dict_get tbl k).2 = tbl := by
  rw [dict_get]
  cases List.find? (fun p => decide (p.1 = k)) tbl with
  | none => rfl
  | some q => rfl

theorem dict_get_fst (tbl : Table) (k : String × Char) :
    (dict_get tbl k).1 = Table.get tbl k := by
  induction tbl with
  | nil => rfl
  | cons p rest ih =>
    obtain ⟨k', rs⟩ := p
    by_cases hk : k' = k
    · simp [dict_get, List.find?, hk, Table.get]
    · rw [Table.get, if_neg hk, ← ih, dict_get, dict_get, List.find?,
        decide_eq_false hk]
      cases hf : List.find? (fun p => decide (p.1 = k)) rest with
      | none => rfl
      | some q => rfl

theorem dict_get_eq (tbl : Table) (k : String × Char) :
    dict_get tbl k = (Table.get tbl k, tbl) := by
  have h1 := dict_get_fst tbl k
  have h2 := dict_get_snd tbl k
  cases hd : dict_get tbl k with
  | mk a b =>
    rw [hd] at h1 h2
    dsimp only at h1 h2
    rw [h1, h2]

theorem scanLevelT_fst (M : Machine) (maxT : Nat) (l : List Config) :
    ∀ count acc, scanLevelT M maxT l count acc M.transitions =
      (scanLevel M succsProgram maxT l count acc, M.transitions) := by
  induction l with
  | nil => intro count acc; rfl
  | cons cf rest ih =>
    intro count acc
    by_cases h1 : cf.state = M.accept_state
    · rw [scanLevelT, scanLevel, if_pos h1, if_pos h1]
    · by_cases h2 : cf.state = M.reject_state
      · rw [scanLevelT, scanLevel, if_neg h1, if_neg h1, if_pos h2, if_pos h2]
        exact ih count acc
      · by_cases h3 : count + 1 > maxT
        · rw [scanLevelT, scanLevel, if_neg h1, if_neg h1, if_neg h2, if_neg h2,
            if_pos h3, if_pos h3]
        · rw [scanLevelT, scanLevel, if_neg h1, if_neg h1, if_neg h2, if_neg h2,
            if_neg h3, if_neg h3, dict_get_eq]
          exact ih (count + 1) (acc ++ (Table.get M.transitions (cf.state, headSymbol cf)).map (applyRule cf))

theorem loopT_spec (M : Machine) (maxDepth maxT : Nat) :
    ∀ fuel tree count, loopT M maxDepth maxT fuel tree count M.transitions =
      (loopFuel M succsProgram maxDepth maxT fuel tree count, M.transitions) := by
  intro fuel
  induction fuel with
  | zero => intro tree count; rfl
  | succ f ih =>
    intro tree count
    by_cases hg : tree ≠ [] ∧ count < maxT
    · cases hscan : scanLevel M succsProgram maxT (tree.getLastD []) count [] with
      | accepted c =>
        rw [loopT, if_pos hg, scanLevelT_fst, hscan,
          loopFuel_accepted M succsProgram maxDepth maxT f tree count c hg hscan]
      | budget c =>
        rw [loopT, if_pos hg, scanLevelT_fst, hscan,
          loopFuel_budget M succsProgram maxDepth maxT f tree count c hg hscan]
      | done next c =>
        rw [loopT, if_pos hg, scanLevelT_fst, hscan,
          loopFuel_done M succsProgram maxDepth maxT f tree count c next hg hscan]
        dsimp only
        by_cases hd : (if next = [] then tree else tree ++ [next]).length > maxDepth
        · rw [if_pos hd, if_pos hd]
        · rw [if_neg hd, if_neg hd]
          by_cases hr : next.all (fun cf => cf.state == M.reject_state) = true
          · rw [if_pos hr, if_pos hr]
          · rw [if_neg hr, if_neg hr]
            exact ih (if next = [] then tree else tree ++ [next]) c
    · rw [loopT, if_neg hg, loopFuel_guard_false M succsProgram maxDepth maxT f tree count hg]

theorem addRule_get (tbl : Table) (k k₂ : String × Char) (r : Rule) :
    Table.get (addRule tbl k r) k₂ =
      if k = k₂ then Table.get tbl k₂ ++ [r] else Table.get tbl k₂ := by
  induction tbl with
  | nil =>
    by_cases hk : k = k₂
    · rw [addRule, if_pos hk, Table.get, Table.get, if_pos hk]
      simp
    · rw [addRule, if_neg hk, Table.get, Table.get, if_neg hk]
      rfl
  | cons p rest ih =>
    obtain ⟨k', rs⟩ := p
    by_cases hk' : k' = k
    · rw [addRule, if_pos hk']
      by_cases hk : k = k₂
      · rw [Table.get, Table.get, if_pos (hk' ▸ hk : k' = k₂), if_pos (hk' ▸ hk : k' = k₂),
          if_pos hk]
      · rw [Table.get, Table.get, if_neg (fun hh => hk (hk'.symm.trans hh)),
          if_neg (fun hh => hk (hk'.symm.trans hh)), if_neg hk]
    · rw [addRule, if_neg hk']
      by_cases hk2 : k' = k₂
      · rw [Table.get, Table.get, if_pos hk2, if_pos hk2]
        have hne : ¬ k = k₂ := fun hh => hk' (hh ▸ hk2.symm ▸ rfl)
        rw [if_neg (fun hh => hne hh)]
      · rw [Table.get, Table.get, if_neg hk2, if_neg hk2, ih]

theorem rowsFor_cons (row : Row) (rest : List Row) (k : String × Char) :
    rowsFor (row :: rest) k =
      if (row.current_state, row.read_symbol) = k then
        (⟨row.new_state, row.write_symbol, row.direction⟩ : Rule) :: rowsFor rest k
      else rowsFor rest k := by
  rw [rowsFor, rowsFor, List.filter_cons]
  by_cases hk : (row.current_state, row.read_symbol) = k
  · rw [if_pos (by simpa using hk), if_pos hk, List.map_cons]
  · rw [if_neg (by simpa using hk), if_neg hk]

theorem load_machine_get_aux (rows : List Row) :
    ∀ (tbl : Table) (k : String × Char),
      Table.get
        (rows.foldl
          (fun tbl row =>
            addRule tbl (row.current_state, row.read_symbol)
              ⟨row.new_state, row.write_symbol, row.direction⟩) tbl) k =
        Table.get tbl k ++ rowsFor rows k := by
  induction rows with
  | nil => intro tbl k; simp [rowsFor]
  | cons row rest ih =>
    intro tbl k
    rw [List.foldl_cons, ih, addRule_get, rowsFor_cons]
    by_cases hk : (row.current_state, row.read_symbol) = k
    · rw [if_pos hk, if_pos hk]
      simp
    · rw [if_neg hk, if_neg hk]

theorem load_machine_get (rows : List Row) (k : String × Char) :
    Table.get (load_machine rows) k = rowsFor rows k := by
  rw [load_machine, load_machine_get_aux rows [] k, Table.get, List.nil_append]

/-! ### Tape mechanics lemmas -/

theorem stripTrailing_snoc_blank (l : List Char) :
    stripTrailingBlanks (l ++ ['_']) = stripTrailingBlanks l := by
  simp [stripTrailingBlanks, List.dropWhile]

theorem applyRule_LR_nil (s : String) (r : List Char) (w : Char) (q₁ q₂ : String) :
    applyRule (applyRule ⟨[], s, r⟩ ⟨q₁, w, "L"⟩)
        ⟨q₂, headSymbol (applyRule ⟨[], s, r⟩ ⟨q₁, w, "L"⟩), "R"⟩ =
      ⟨['_'], q₂, writeSymbol r w⟩ := by
  cases r with
  | nil => simp [applyRule, writeSymbol, headSymbol]
  | cons y t => simp [applyRule, writeSymbol, headSymbol]

theorem applyRule_LR_concat (l₀ : List Char) (x : Char) (s : String) (r : List Char)
    (w : Char) (q₁ q₂ : String) :
    applyRule (applyRule ⟨l₀ ++ [x], s, r⟩ ⟨q₁, w, "L"⟩)
        ⟨q₂, headSymbol (applyRule ⟨l₀ ++ [x], s, r⟩ ⟨q₁, w, "L"⟩), "R"⟩ =
      ⟨l₀ ++ [x], q₂, writeSymbol r w⟩ := by
  cases r with
  | nil => simp [applyRule, writeSymbol, headSymbol]
  | cons y t => simp [applyRule, writeSymbol, headSymbol]

theorem applyRule_RL_nil (l : List Char) (s : String) (w : Char) (q₁ q₂ : String) :
    applyRule (applyRule ⟨l, s, []⟩ ⟨q₁, w, "R"⟩)
        ⟨q₂, headSymbol (applyRule ⟨l, s, []⟩ ⟨q₁, w, "R"⟩), "L"⟩ =
      ⟨l, q₂, [w, '_']⟩ := by
  simp [applyRule, writeSymbol, headSymbol]

theorem applyRule_RL_one (l : List Char) (s : String) (y w : Char) (q₁ q₂ : String) :
    applyRule (applyRule ⟨l, s, [y]⟩ ⟨q₁, w, "R"⟩)
        ⟨q₂, headSymbol (applyRule ⟨l, s, [y]⟩ ⟨q₁, w, "R"⟩), "L"⟩ =
      ⟨l, q₂, [w, '_']⟩ := by
  simp [applyRule, writeSymbol, headSymbol]

theorem applyRule_RL_two (l : List Char) (s : String) (y z : Char) (t : List Char)
    (w : Char) (q₁ q₂ : String) :
    applyRule (applyRule ⟨l, s, y :: z :: t⟩ ⟨q₁, w, "R"⟩)
        ⟨q₂, headSymbol (applyRule ⟨l, s, y :: z :: t⟩ ⟨q₁, w, "R"⟩), "L"⟩ =
      ⟨l, q₂, w :: z :: t⟩ := by
  simp [applyRule, writeSymbol, headSymbol]

/-! ### Run-level helper lemmas -/

theorem runWith_inv (succs : Machine → Config → List Config) (M : Machine)
    (input : List Char) (maxDepth maxT : Nat) :
    Inv M succs (runWith succs M input maxDepth maxT).tree := by
  apply loop_inv
  constructor
  · intro l hl
    rw [List.mem_singleton.mp hl]
    exact List.cons_ne_nil _ _
  · intro i h
    rw [List.length_singleton] at h
    omega

theorem runWith_tree_ne_nil (succs : Machine → Config → List Config) (M : Machine)
    (input : List Char) (maxDepth maxT : Nat) :
    (runWith succs M input maxDepth maxT).tree ≠ [] := by
  apply treeExtends_ne_nil (List.cons_ne_nil _ _)
  exact loop_treeExtends M succs maxDepth maxT (maxT + 1) [[⟨[], M.start_state, input⟩]] 0

/-! ### Claim theorems -/

/-- C7: for every machine definition and input string, calling `run` with
`maxTransitions = 0` yields the exhaustion outcome (the loop guard
`transitions < max_transitions` fails at once, producing the
`"No valid paths found. Machine halted."` report), the tree stays at the
single initial level, and the transition counter stays `0`, in both source
files. -/
theorem c7_zero_budget_exhausts (M : Machine) (input : List Char) (maxDepth : Nat) :
    runProgram M input maxDepth 0 =
      ⟨.noValidPaths, [[⟨[], M.start_state, input⟩]], 0⟩ ∧
    runNefario M input maxDepth 0 =
      ⟨.noValidPaths, [[⟨[], M.start_state, input⟩]], 0⟩ := by
  constructor
  · rw [runProgram, runWith,
      loopFuel_guard_false M succsProgram maxDepth 0 0 [[⟨[], M.start_state, input⟩]] 0
        (fun h => absurd h.2 (Nat.lt_irrefl 0))]
  · rw [runNefario, runWith,
      loopFuel_guard_false M succsNefario maxDepth 0 0 [[⟨[], M.start_state, input⟩]] 0
        (fun h => absurd h.2 (Nat.lt_irrefl 0))]

/-- C10: there is a machine, input and `maxTransitions` for which the last
level of the halted tree contains an accept-state configuration while the
run reports the exhaustion outcome, in both source files: with the single
rule `q0,a → qa` and `maxTransitions = 1`, the accepting configuration is
appended to the tree, but the loop is not re-entered once the counter has
reached the budget, so acceptance is never detected. -/
theorem c10_accept_missed_on_budget :
    (runProgram MtoAccept ['a'] 100 1).outcome = .noValidPaths ∧
    ((runProgram MtoAccept ['a'] 100 1).tree.getLastD []).any
      (fun cf => cf.state == MtoAccept.accept_state) = true ∧
    (runNefario MtoAccept ['a'] 100 1).outcome = .noValidPaths ∧
    ((runNefario MtoAccept ['a'] 100 1).tree.getLastD []).any
      (fun cf => cf.state == MtoAccept.accept_state) = true := by decide

/-- C8: writing `w` and moving Left, then writing back the symbol now under
the head and moving Right, returns to a configuration with the same tape
contents and head position as the original except that the originally-read
cell holds `w`; and symmetrically for Right then Left.  Tape contents are
compared up to the blanks the moves materialize at the far ends of the two
tape halves (`stripLeadingBlanks` / `stripTrailingBlanks`), since the tape
is conceptually infinite and blank beyond the materialized cells: the
right tape (head cell onward) comes back exactly as
`writeSymbol c.right_tape w` in the Left/Right round trip, and the left
tape exactly in the Right/Left round trip. -/
theorem c8_tape_shift_roundtrip (c : Config) (w : Char) (q₁ q₂ : String) :
    (stripLeadingBlanks
        (applyRule (applyRule c ⟨q₁, w, "L"⟩)
          ⟨q₂, headSymbol (applyRule c ⟨q₁, w, "L"⟩), "R"⟩).left_tape =
      stripLeadingBlanks c.left_tape ∧
     (applyRule (applyRule c ⟨q₁, w, "L"⟩)
        ⟨q₂, headSymbol (applyRule c ⟨q₁, w, "L"⟩), "R"⟩).right_tape =
      writeSymbol c.right_tape w) ∧
    ((applyRule (applyRule c ⟨q₁, w, "R"⟩)
        ⟨q₂, headSymbol (applyRule c ⟨q₁, w, "R"⟩), "L"⟩).left_tape =
      c.left_tape ∧
     stripTrailingBlanks
        (applyRule (applyRule c ⟨q₁, w, "R"⟩)
          ⟨q₂, headSymbol (applyRule c ⟨q₁, w, "R"⟩), "L"⟩).right_tape =
      stripTrailingBlanks (writeSymbol c.right_tape w)) := by
  obtain ⟨l, s, r⟩ := c
  constructor
  · rcases List.eq_nil_or_concat l with rfl | ⟨l₀, x, rfl⟩
    · rw [applyRule_LR_nil]
      constructor
      · simp [stripLeadingBlanks, List.dropWhile]
      · rfl
    · simp only [List.concat_eq_append]
      rw [applyRule_LR_concat]
      exact ⟨rfl, rfl⟩
  · rcases r with _ | ⟨y, _ | ⟨z, t⟩⟩
    · rw [applyRule_RL_nil]
      refine ⟨rfl, ?_⟩
      have h2 : ([w, '_'] : List Char) = [w] ++ ['_'] := rfl
      show stripTrailingBlanks [w, '_'] = _
      rw [h2, stripTrailing_snoc_blank]
      rfl
    · rw [applyRule_RL_one]
      refine ⟨rfl, ?_⟩
      have h2 : ([w, '_'] : List Char) = [w] ++ ['_'] := rfl
      show stripTrailingBlanks [w, '_'] = _
      rw [h2, stripTrailing_snoc_blank]
      rfl
    · rw [applyRule_RL_two]
      exact ⟨rfl, rfl⟩

/-- C9: the transition table built by `load_machine` maps every key to the
ordered sequence of the rules of the rows bearing that key, in row order —
in particular the empty sequence, not an error, for an absent key; the
query operation `dict_get` (Python's `dict.get(key, [])`) returns that
sequence and leaves any table unchanged; and a whole run threaded through
the explicit-table loop (`runT`) returns the table exactly as
`load_machine` produced it, while computing the same result as the pure
run. -/
theorem c9_table_immutable_and_ordered :
    (∀ (rows : List Row) (k : String × Char),
      Table.get (load_machine rows) k = rowsFor rows k) ∧
    (∀ (tbl : Table) (k : String × Char),
      dict_get tbl k = (Table.get tbl k, tbl)) ∧
    (∀ (M : Machine) (input : List Char) (maxDepth maxT : Nat),
      (runT M input maxDepth maxT).2 = M.transitions ∧
      (runT M input maxDepth maxT).1 = runProgram M input maxDepth maxT) := by
  refine ⟨load_machine_get, dict_get_eq, ?_⟩
  intro M input maxDepth maxT
  rw [runT, loopT_spec, runProgram, runWith]
  exact ⟨rfl, rfl⟩

/-- C5 counterexample: with `maxDepth = 0`, a machine with no transitions
expands the initial level to an empty next level, yet the run reports the
max-depth exhaustion outcome, not rejection at the current level's index
`0`: the depth check runs before the rejection check. -/
theorem c5_counterexample :
    levelExpand Mnone succsProgram [⟨[], "q0", []⟩] = [] ∧
    (runProgram Mnone [] 0 10).outcome = .depthExceeded ∧
    (runProgram Mnone [] 0 10).outcome ≠ .rejected 0 := by decide

/-- C5 (amended): when an iteration of the loop of `src/program.py` scans
its current last level to completion and produces no successor at all, and
the tree is within `maxDepth`, the run halts reporting rejection with the
current level's index as the depth, the tree unchanged — one less than the
index reported in the distinct all-successors-are-reject case, which first
appends the next level; when `maxDepth` is already exceeded (possible only
for the initial level with `maxDepth = 0`), the max-depth exhaustion
outcome is reported instead. -/
theorem c5_empty_next_rejects_current (M : Machine) (maxDepth maxT fuel : Nat)
    (tree : List (List Config)) (count c₂ : Nat)
    (htne : tree ≠ []) (hcnt : count < maxT) (hfuel : 1 ≤ fuel)
    (hdep : tree.length ≤ maxDepth)
    (hscan : scanLevel M succsProgram maxT (tree.getLastD []) count [] = .done [] c₂) :
    loopFuel M succsProgram maxDepth maxT fuel tree count =
      ⟨.rejected (tree.length - 1), tree, c₂⟩ := by
  obtain ⟨f, rfl⟩ : ∃ f, fuel = f + 1 := ⟨fuel - 1, by omega⟩
  rw [loopFuel_done M succsProgram maxDepth maxT f tree count c₂ [] ⟨htne, hcnt⟩ hscan]
  rw [show (if ([] : List Config) = [] then tree else tree ++ [[]]) = tree from if_pos rfl]
  rw [if_neg (by omega : ¬ tree.length > maxDepth),
    if_pos (show (([] : List Config).all fun cf => cf.state == M.reject_state) = true from rfl)]

/-- C5 witness: the machine with no transitions on the empty input, within
the depth limit, rejects at level `0` with the tree unchanged. -/
theorem c5_witness :
    loopFuel Mnone succsProgram 5 10 11 [[⟨[], "q0", []⟩]] 0 =
      ⟨Outcome.rejected 0, [[⟨[], "q0", []⟩]], 1⟩ :=
  c5_empty_next_rejects_current Mnone 5 10 11 [[⟨[], "q0", []⟩]] 0 1
    (by decide) (by decide) (by decide) (by decide) (by decide)

/-- C6 counterexample: with `maxTransitions = 0` and a machine whose start
state is its accept state, the loop guard fails immediately and the run
reports the exhaustion outcome, not acceptance at depth 0. -/
theorem c6_counterexample :
    MstartAccept.start_state = MstartAccept.accept_state ∧
    (runProgram MstartAccept [] 100 0).outcome = .noValidPaths ∧
    (runProgram MstartAccept [] 100 0).outcome ≠ .accepted 0 := by decide

theorem runWith_start_accept (succs : Machine → Config → List Config) (M : Machine)
    (input : List Char) (maxDepth maxT : Nat)
    (hs : M.start_state = M.accept_state) (ht : 1 ≤ maxT) :
    runWith succs M input maxDepth maxT =
      ⟨.accepted 0, [[⟨[], M.start_state, input⟩]], 0⟩ := by
  rw [runWith]
  obtain ⟨t, rfl⟩ : ∃ t, maxT = t + 1 := ⟨maxT - 1, by omega⟩
  rw [loopFuel_accepted M succs maxDepth (t + 1) (t + 1)
    [[⟨[], M.start_state, input⟩]] 0 0 ⟨List.cons_ne_nil _ _, by omega⟩
    (by simp [scanLevel, hs])]
  rfl

/-- C6 (amended): for every machine whose `startState` equals `acceptState`
and every input, `maxDepth`, and every `maxTransitions ≥ 1` (so the loop is
entered at all — with a zero budget the exhaustion outcome precedes the
acceptance check, see the counterexample), both source files report
acceptance at depth `0`, with level `0` holding exactly the one initial
configuration and the transition counter still `0`. -/
theorem c6_start_accept_depth0 (M : Machine) (input : List Char) (maxDepth maxT : Nat)
    (hs : M.start_state = M.accept_state) (ht : 1 ≤ maxT) :
    runProgram M input maxDepth maxT =
      ⟨.accepted 0, [[⟨[], M.start_state, input⟩]], 0⟩ ∧
    runNefario M input maxDepth maxT =
      ⟨.accepted 0, [[⟨[], M.start_state, input⟩]], 0⟩ :=
  ⟨runWith_start_accept succsProgram M input maxDepth maxT hs ht,
   runWith_start_accept succsNefario M input maxDepth maxT hs ht⟩

/-- C6 witness: the start-equals-accept machine with budget `5` accepts at
depth `0` with the single initial configuration. -/
theorem c6_witness :
    runProgram MstartAccept [] 100 5 = ⟨.accepted 0, [[⟨[], "qs", []⟩]], 0⟩ ∧
    runNefario MstartAccept [] 100 5 = ⟨.accepted 0, [[⟨[], "qs", []⟩]], 0⟩ :=
  c6_start_accept_depth0 MstartAccept [] 100 5 (by decide) (by decide)

/-- C2 counterexample: in a `src/program.py` run of the branching machine,
level 1 holds a configuration with no transition entry; the spec's width
formula (count 1 for an undefined move) predicts 2 configurations at level
2, but the run materializes only 1 — `program.py` synthesizes no implicit
reject successor. -/
theorem c2_counterexample :
    ((runProgram Mbranch ['a'] 10 100).tree.getD 2 []).length = 1 ∧
    levelWidthSpec Mbranch ((runProgram Mbranch ['a'] 10 100).tree.getD 1 []) = 2 ∧
    ((runProgram Mbranch ['a'] 10 100).tree.getD 2 []).length ≠
      levelWidthSpec Mbranch ((runProgram Mbranch ['a'] 10 100).tree.getD 1 []) := by
  decide

/-- C2 (amended): in every run, each level after the first is exactly as
wide as the sum over its predecessor's configurations that are in neither
the accept nor the reject state of — for `src/TM_trace_nefario.py` — the
number of transition-table entries for the configuration's
`(state, head symbol)`, counting 1 when no entry exists, and — for
`src/program.py` — the same sum counting 0 when no entry exists (an
undefined move yields no successor there). -/
theorem c2_level_widths (M : Machine) (input : List Char) (maxDepth maxT i : Nat) :
    (∀ h : i + 1 < (runNefario M input maxDepth maxT).tree.length,
      ((runNefario M input maxDepth maxT).tree.get ⟨i + 1, h⟩).length =
        levelWidthSpec M
          ((runNefario M input maxDepth maxT).tree.get ⟨i, by omega⟩)) ∧
    (∀ h : i + 1 < (runProgram M input maxDepth maxT).tree.length,
      ((runProgram M input maxDepth maxT).tree.get ⟨i + 1, h⟩).length =
        levelWidthProgram M
          ((runProgram M input maxDepth maxT).tree.get ⟨i, by omega⟩)) := by
  constructor
  · intro h
    have hch := (runWith_inv succsNefario M input maxDepth maxT).2 i h
    show ((runWith succsNefario M input maxDepth maxT).tree.get ⟨i + 1, h⟩).length =
      levelWidthSpec M
        ((runWith succsNefario M input maxDepth maxT).tree.get ⟨i, Nat.lt_of_succ_lt h⟩)
    rw [hch.1]
    exact levelExpand_length_nefario M _ hch.2
  · intro h
    have hch := (runWith_inv succsProgram M input maxDepth maxT).2 i h
    show ((runWith succsProgram M input maxDepth maxT).tree.get ⟨i + 1, h⟩).length =
      levelWidthProgram M
        ((runWith succsProgram M input maxDepth maxT).tree.get ⟨i, Nat.lt_of_succ_lt h⟩)
    rw [hch.1]
    exact levelExpand_length_program M _ hch.2

/-- C2 witness: for the machine whose single rule enters the reject state,
level 1 of both runs is exactly as wide as the respective formula predicts
over level 0. -/
theorem c2_witness :
    ((runNefario MtoReject ['a'] 5 100).tree.get ⟨1, by decide⟩).length =
      levelWidthSpec MtoReject
        ((runNefario MtoReject ['a'] 5 100).tree.get ⟨0, by decide⟩) ∧
    ((runProgram MtoReject ['a'] 5 100).tree.get ⟨1, by decide⟩).length =
      levelWidthProgram MtoReject
        ((runProgram MtoReject ['a'] 5 100).tree.get ⟨0, by decide⟩) :=
  ⟨(c2_level_widths MtoReject ['a'] 5 100 0).1 (by decide),
   (c2_level_widths MtoReject ['a'] 5 100 0).2 (by decide)⟩

/-- C3 counterexample: with `maxDepth = 0` the run still computes one level
beyond the initial one (the depth check runs only after the level has been
appended), so the tree is not bounded by `maxDepth` levels beyond the
initial level for all parameter values. -/
theorem c3_counterexample :
    (runProgram MtoAccept ['a'] 0 10).tree.length - 1 = 1 ∧
    ¬ ((runProgram MtoAccept ['a'] 0 10).tree.length - 1 ≤ 0) := by decide

/-- C3 (amended): every run of either file terminates — witnessed by the
fuelled loop being independent of any fuel of at least `maxTransitions + 1`
— and is resource-bounded: the tree never exceeds `max maxDepth 1` levels
beyond the initial one (one level beyond `maxDepth` is possible only when
`maxDepth = 0`), and the transition counter never passes the budget except
by the single aborted attempt that triggers the budget outcome: it ends at
exactly `maxTransitions + 1` on the budget outcome and at most
`maxTransitions` otherwise, so at most `maxTransitions` expansions are ever
performed. -/
theorem c3_terminates_within_bounds (M : Machine) (input : List Char)
    (maxDepth maxT : Nat) :
    ((runProgram M input maxDepth maxT).tree.length ≤ max maxDepth 1 + 1 ∧
     ((runProgram M input maxDepth maxT).outcome = .budgetExceeded →
       (runProgram M input maxDepth maxT).count = maxT + 1) ∧
     ((runProgram M input maxDepth maxT).outcome ≠ .budgetExceeded →
       (runProgram M input maxDepth maxT).count ≤ maxT) ∧
     (∀ fuel, maxT + 1 ≤ fuel →
       loopFuel M succsProgram maxDepth maxT fuel [[⟨[], M.start_state, input⟩]] 0 =
         runProgram M input maxDepth maxT)) ∧
    ((runNefario M input maxDepth maxT).tree.length ≤ max maxDepth 1 + 1 ∧
     ((runNefario M input maxDepth maxT).outcome = .budgetExceeded →
       (runNefario M input maxDepth maxT).count = maxT + 1) ∧
     ((runNefario M input maxDepth maxT).outcome ≠ .budgetExceeded →
       (runNefario M input maxDepth maxT).count ≤ maxT) ∧
     (∀ fuel, maxT + 1 ≤ fuel →
       loopFuel M succsNefario maxDepth maxT fuel [[⟨[], M.start_state, input⟩]] 0 =
         runNefario M input maxDepth maxT)) := by
  constructor
  · refine ⟨?_, (loop_count M succsProgram maxDepth maxT (maxT + 1) _ 0 (by omega)).1,
      (loop_count M succsProgram maxDepth maxT (maxT + 1) _ 0 (by omega)).2, ?_⟩
    · exact loop_depth M succsProgram maxDepth maxT (maxT + 1) _ 0 (by simp)
    · intro fuel hf
      exact loopFuel_stable M succsProgram maxDepth maxT fuel (maxT + 1) _ 0
        (by omega) (by omega)
  · refine ⟨?_, (loop_count M succsNefario maxDepth maxT (maxT + 1) _ 0 (by omega)).1,
      (loop_count M succsNefario maxDepth maxT (maxT + 1) _ 0 (by omega)).2, ?_⟩
    · exact loop_depth M succsNefario maxDepth maxT (maxT + 1) _ 0 (by simp)
    · intro fuel hf
      exact loopFuel_stable M succsNefario maxDepth maxT fuel (maxT + 1) _ 0
        (by omega) (by omega)

/-- C3 witness: for the accepting one-rule machine the bounds hold
concretely, and fuel `50` yields the same run as the supplied fuel. -/
theorem c3_witness :
    (runProgram MtoAccept ['a'] 5 10).tree.length ≤ max 5 1 + 1 ∧
    (runProgram MtoAccept ['a'] 5 10).count ≤ 10 ∧
    loopFuel MtoAccept succsProgram 5 10 50 [[⟨[], "q0", ['a']⟩]] 0 =
      runProgram MtoAccept ['a'] 5 10 :=
  ⟨(c3_terminates_within_bounds MtoAccept ['a'] 5 10).1.1,
   (c3_terminates_within_bounds MtoAccept ['a'] 5 10).1.2.2.1 (by decide),
   (c3_terminates_within_bounds MtoAccept ['a'] 5 10).1.2.2.2 50 (by decide)⟩

theorem runWith_allReject (succs : Machine → Config → List Config) (M : Machine)
    (input : List Char) (maxDepth maxT : Nat)
    (hA : M.accept_state ≠ M.reject_state) (ht : 1 ≤ maxT) :
    ∀ i (h : i < (runWith succs M input maxDepth maxT).tree.length),
      allRejectLevel M ((runWith succs M input maxDepth maxT).tree.get ⟨i, h⟩) →
      i = (runWith succs M input maxDepth maxT).tree.length - 1 ∧
      (runWith succs M input maxDepth maxT).outcome =
        (if (runWith succs M input maxDepth maxT).tree.length ≤ maxDepth then
          Outcome.rejected i else Outcome.depthExceeded) := by
  intro i h har
  have hinv := runWith_inv succs M input maxDepth maxT
  have htne := runWith_tree_ne_nil succs M input maxDepth maxT
  have hi : i = (runWith succs M input maxDepth maxT).tree.length - 1 := by
    by_contra hne
    have hlt : i + 1 < (runWith succs M input maxDepth maxT).tree.length := by omega
    have hch := hinv.2 i hlt
    have hnil : (runWith succs M input maxDepth maxT).tree.get ⟨i + 1, hlt⟩ = [] := by
      rw [hch.1]
      exact levelExpand_allReject M succs _ har
    exact (hinv.1 _ (List.get_mem _ _ _)) hnil
  refine ⟨hi, ?_⟩
  have har2 : allRejectLevel M
      ((runWith succs M input maxDepth maxT).tree.getLastD []) := by
    rw [getLastD_eq_get _ [] htne]
    have hii : (runWith succs M input maxDepth maxT).tree.length - 1 = i := hi.symm
    intro cf hcf
    apply har cf
    have hget : (runWith succs M input maxDepth maxT).tree.get
        ⟨(runWith succs M input maxDepth maxT).tree.length - 1, by
          have := List.length_pos.mpr htne
          omega⟩ =
        (runWith succs M input maxDepth maxT).tree.get ⟨i, h⟩ := by
      congr 1
      exact Fin.ext hii
    rwa [← hget]
  have hout := loop_lastRej M succs maxDepth maxT hA (maxT + 1)
    [[⟨[], M.start_state, input⟩]] 0 (List.cons_ne_nil _ _) (by omega)
    (fun _ => by omega) har2
  rw [hi]
  exact hout

/-- C4 counterexample: a level whose configurations are all in the reject
state is reached exactly when the tree also exceeds `maxDepth`
(`maxDepth = 1`): the run reports the max-depth exhaustion outcome, not
rejection at that level's index — the depth check runs first. -/
theorem c4_counterexample :
    allRejectLevel MtoReject ((runProgram MtoReject ['a'] 1 1000).tree.getD 1 []) ∧
    (runProgram MtoReject ['a'] 1 1000).outcome = .depthExceeded ∧
    (runProgram MtoReject ['a'] 1 1000).outcome ≠ .rejected 1 := by decide

/-- C4 (amended): in both source files, with distinct accept and reject
states and a positive transition budget, a level whose configurations are
all in the reject state can only be the final level of the tree (no further
level is computed), and the run reports rejection with that level's index
as the depth — unless the tree's level count exceeds `maxDepth` at that
same moment, in which case the max-depth exhaustion outcome takes
precedence over the rejection report. -/
theorem c4_all_reject_is_final_level (M : Machine) (input : List Char)
    (maxDepth maxT : Nat) (hA : M.accept_state ≠ M.reject_state) (ht : 1 ≤ maxT) :
    (∀ i (h : i < (runProgram M input maxDepth maxT).tree.length),
      allRejectLevel M ((runProgram M input maxDepth maxT).tree.get ⟨i, h⟩) →
      i = (runProgram M input maxDepth maxT).tree.length - 1 ∧
      (runProgram M input maxDepth maxT).outcome =
        (if (runProgram M input maxDepth maxT).tree.length ≤ maxDepth then
          Outcome.rejected i else Outcome.depthExceeded)) ∧
    (∀ i (h : i < (runNefario M input maxDepth maxT).tree.length),
      allRejectLevel M ((runNefario M input maxDepth maxT).tree.get ⟨i, h⟩) →
      i = (runNefario M input maxDepth maxT).tree.length - 1 ∧
      (runNefario M input maxDepth maxT).outcome =
        (if (runNefario M input maxDepth maxT).tree.length ≤ maxDepth then
          Outcome.rejected i else Outcome.depthExceeded)) :=
  ⟨runWith_allReject succsProgram M input maxDepth maxT hA ht,
   runWith_allReject succsNefario M input maxDepth maxT hA ht⟩

/-- C4 witness: for the one-rule machine into the reject state within the
depth limit, level 1 is all-reject, is the final level, and the run rejects
at depth 1. -/
theorem c4_witness :
    1 = (runProgram MtoReject ['a'] 5 1000).tree.length - 1 ∧
    (runProgram MtoReject ['a'] 5 1000).outcome =
      (if (runProgram MtoReject ['a'] 5 1000).tree.length ≤ 5 then Outcome.rejected 1
       else Outcome.depthExceeded) :=
  (c4_all_reject_is_final_level MtoReject ['a'] 5 1000 (by decide) (by decide)).1
    1 (by decide) (by decide)

/-- C1 counterexample: on the machine with no transitions, the two source
files disagree: `src/program.py` rejects at depth 0 with a one-level tree
(the initial configuration produced no successor), while
`src/TM_trace_nefario.py` synthesizes an implicit reject successor and
rejects at depth 1 with a two-level tree. -/
theorem c1_counterexample :
    runProgram Mnone [] 100 1000 ≠ runNefario Mnone [] 100 1000 := by decide

/-- C1 (amended): the two source files implement the same core except for
the handling of a configuration whose `(state, head symbol)` has no
transition-table entry: on any configuration with at least one entry their
expansions are identical, and on one with no entry `src/program.py`
produces no successor while `src/TM_trace_nefario.py` produces exactly one
reject-state copy of the configuration; consequently any run of
`src/TM_trace_nefario.py` in whose tree every configuration is terminal or
has an entry is reproduced identically (same outcome, tree and counter) by
`src/program.py`. -/
theorem c1_files_differ_only_on_undefined_moves :
    (∀ (M : Machine) (input : List Char) (maxDepth maxT : Nat),
      (∀ l ∈ (runNefario M input maxDepth maxT).tree, levelOK M l) →
      runProgram M input maxDepth maxT = runNefario M input maxDepth maxT) ∧
    (∀ (M : Machine) (c : Config),
      (Table.get M.transitions (c.state, headSymbol c) = [] →
        succsProgram M c = [] ∧
        succsNefario M c = [⟨c.left_tape, M.reject_state, c.right_tape⟩]) ∧
      (Table.get M.transitions (c.state, headSymbol c) ≠ [] →
        succsProgram M c = succsNefario M c)) := by
  constructor
  · intro M input maxDepth maxT hok
    rw [runProgram, runNefario, runWith, runWith]
    exact loop_agree M maxDepth maxT (maxT + 1) [[⟨[], M.start_state, input⟩]] 0
      (List.cons_ne_nil _ _) hok
  · intro M c
    constructor
    · intro hnil
      constructor
      · rw [succsProgram, hnil]
        rfl
      · rw [succsNefario]
        simp [hnil]
    · intro hne
      rw [succsProgram, succsNefario]
      simp [hne]

/-- C1 witness: on the one-rule accepting machine every materialized
configuration has an entry or is terminal, and the two files produce the
same run; on the empty machine the two successor functions exhibit the
undefined-move difference. -/
theorem c1_witness :
    (∀ l ∈ (runNefario MtoAccept ['a'] 5 10).tree, levelOK MtoAccept l) ∧
    runProgram MtoAccept ['a'] 5 10 = runNefario MtoAccept ['a'] 5 10 ∧
    succsProgram Mnone ⟨[], "q0", []⟩ = [] ∧
    succsNefario Mnone ⟨[], "q0", []⟩ = [⟨[], "qr", []⟩] := by
  refine ⟨by decide,
    c1_files_differ_only_on_undefined_moves.1 MtoAccept ['a'] 5 10 (by decide), ?_, ?_⟩
  · exact ((c1_files_differ_only_on_undefined_moves.2 Mnone ⟨[], "q0", []⟩).1
      (by decide)).1
  · exact ((c1_files_differ_only_on_undefined_moves.2 Mnone ⟨[], "q0", []⟩).1
      (by decide)).2

end NTM
